import Mathlib

/-! # sego dictionary: a shallow embedding of `dictionary.go`

The Go file keeps a list of tokens (`tokens`), a byte-keyed trie whose values
are subscripts into that list (`trie`), and two aggregates
(`maxTokenLength`, `totalFrequency`).  The functions `addToken`, `delToken`
and `lookupTokens` are translated statement by statement.  A Go run-time
panic (slice or index out of range) is the result `none`.

Bytes are natural numbers, Go `int` values that can be negative are `Int`,
and the `int64` accumulator wraps around explicitly.
-/

set_option maxRecDepth 20000

namespace Sego

/-- Modelled from the spec: the type `Text` is declared outside `dictionary.go`;
one symbol of a token or of the input, given as its byte encoding. -/
abbrev Text := List Nat

/-- Modelled from the spec: the type `Token` is declared outside `dictionary.go`;
a dictionary entry is a symbol sequence `text` plus a `frequency` weight (the only
two fields `dictionary.go` reads). -/
structure Token where
  text : List Text
  frequency : Int
deriving DecidableEq, Repr

/-- Modelled from the spec: `textSliceToBytes` is defined outside `dictionary.go`;
the key encoding of a text is the byte sequence obtained by writing its symbols one
after the other, so that walking the symbols one by one follows the key. -/
def textSliceToBytes : List Text → List Nat
  | [] => []
  | word :: rest => word ++ textSliceToBytes rest

/-- Modelled from the spec: the trie engine (`cedar.Cedar`) is an external package;
it is the byte-keyed associative structure of the spec, here the list of its
`(key, value)` entries in insertion order. -/
structure Cedar where
  entries : List (List Nat × Nat)
deriving DecidableEq, Repr

namespace Cedar

/-- Modelled from the spec: `cedar.New`, the empty trie. -/
def New : Cedar := ⟨[]⟩

/-- Modelled from the spec: `get(key)`, the value stored under `key`, or `none`
(the Go call returns an error) when `key` is not stored. -/
def Get (da : Cedar) (key : List Nat) : Option Nat :=
  (da.entries.find? (fun e => decide (e.1 = key))).map (fun e => e.2)

/-- Modelled from the spec: `insert(key, value)`; a key already stored gets the new
value, a fresh key is added. -/
def Insert (da : Cedar) (key : List Nat) (value : Nat) : Cedar :=
  if (da.Get key).isSome then
    ⟨da.entries.map (fun e => if e.1 = key then (key, value) else e)⟩
  else
    ⟨da.entries ++ [(key, value)]⟩

/-- Modelled from the spec: `delete(key)`; `none` (not found) when `key` is not
stored, otherwise the trie without `key`. -/
def Delete (da : Cedar) (key : List Nat) : Option Cedar :=
  if (da.Get key).isSome then
    some ⟨da.entries.filter (fun e => decide (e.1 ≠ key))⟩
  else
    none

/-- A trie state is identified with the byte path that leads to it from the root
(the root is the empty path); a path is a state of the trie when some stored key
starts with it. -/
def hasPath (da : Cedar) (path : List Nat) : Bool :=
  da.entries.any (fun e => path.isPrefixOf e.1)

/-- Modelled from the spec: `step(state, symbol)`; from the state `src` follow the
bytes of `path` one at a time, `none` (no transition) as soon as a byte has no
child. -/
def Jump (da : Cedar) : List Nat → List Nat → Option (List Nat)
  | [], src => some src
  | b :: path, src =>
    if da.hasPath (src ++ [b]) then da.Jump path (src ++ [b]) else none

/-- Modelled from the spec: `value(state)`; the value of the key that ends at the
state `id`, or `none` when the state is not accepting. -/
def Value (da : Cedar) (id : List Nat) : Option Nat :=
  da.Get id

end Cedar

/-- The `Dictionary` struct (the mutex is left out: calls are sequential). -/
structure Dictionary where
  trie : Cedar
  maxTokenLength : Int
  tokens : List Token
  totalFrequency : Int
deriving DecidableEq, Repr

/-- Two's-complement wrap-around of a mathematical integer into `int64`. -/
def wrapInt64 (x : Int) : Int :=
  (x + 2 ^ 63) % 2 ^ 64 - 2 ^ 63

/-- Constructor `NewDictionary`: an empty trie, every other field at its zero value. -/
def NewDictionary : Dictionary :=
  { trie := Cedar.New, maxTokenLength := 0, tokens := [], totalFrequency := 0 }

/-- Accessor `MaxTokenLength()`. -/
def MaxTokenLength (dict : Dictionary) : Int :=
  dict.maxTokenLength

/-- Accessor `NumTokens()`. -/
def NumTokens (dict : Dictionary) : Nat :=
  dict.tokens.length

/-- Accessor `TotalFrequency()`. -/
def TotalFrequency (dict : Dictionary) : Int :=
  dict.totalFrequency

/-- Method `addToken`: nothing happens when the key of the token is already in the
trie; otherwise the key is inserted with the current `NumTokens()` as its value, the
token is appended to the store and the two aggregates are updated. -/
def addToken (dict : Dictionary) (token : Token) : Dictionary :=
  let bytes := textSliceToBytes token.text
  match dict.trie.Get bytes with
  | some _ => dict
  | none =>
    { trie := dict.trie.Insert bytes (NumTokens dict)
      tokens := dict.tokens ++ [token]
      totalFrequency := wrapInt64 (dict.totalFrequency + token.frequency)
      maxTokenLength :=
        if (token.text.length : Int) > dict.maxTokenLength then (token.text.length : Int)
        else dict.maxTokenLength }

/-- The rescan loop at the end of `delToken`: starting from the current
`maxTokenLength`, every token longer than the running value replaces it. -/
def rescan : List Token → Int → Int
  | [], m => m
  | t :: rest, m =>
    if (t.text.length : Int) > m then rescan rest (t.text.length : Int) else rescan rest m

/-- Method `delToken`; `none` is the panic of the slice expressions
`dict.tokens[:subscript]` and `dict.tokens[subscript+1:]` when `subscript` is not a
valid index of `dict.tokens`. -/
def delToken (dict : Dictionary) (token : Token) : Option Dictionary :=
  let bytes := textSliceToBytes token.text
  match dict.trie.Get bytes with
  | none => some dict
  | some subscript =>
    if subscript < dict.tokens.length then
      let tokens := dict.tokens.take subscript ++ dict.tokens.drop (subscript + 1)
      match dict.trie.Delete bytes with
      | none => some { dict with tokens := tokens }
      | some trie =>
        let totalFrequency := wrapInt64 (dict.totalFrequency - token.frequency)
        if (token.text.length : Int) < dict.maxTokenLength then
          some { trie := trie, tokens := tokens, totalFrequency := totalFrequency,
                 maxTokenLength := dict.maxTokenLength }
        else
          some { trie := trie, tokens := tokens, totalFrequency := totalFrequency,
                 maxTokenLength := rescan tokens dict.maxTokenLength }
    else
      none

/-- The loop of `lookupTokens` from the trie state `id` on, with the output buffer
`out` (a `nil` pointer is `none`, a pointer to a stored token is that token) and
`numOfTokens` matches so far.  `none` is an index-out-of-range panic, either of
`dict.tokens[value]` or of `tokens[numOfTokens]`. -/
def lookupLoop (dict : Dictionary) :
    List Text → List Nat → List (Option Token) → Nat → Option (List (Option Token) × Nat)
  | [], _, out, numOfTokens => some (out, numOfTokens)
  | word :: rest, id, out, numOfTokens =>
    match dict.trie.Jump word id with
    | none => some (out, numOfTokens)
    | some id' =>
      match dict.trie.Value id' with
      | none => lookupLoop dict rest id' out numOfTokens
      | some value =>
        match dict.tokens[value]? with
        | none => none
        | some tok =>
          if numOfTokens < out.length then
            lookupLoop dict rest id' (out.set numOfTokens (some tok)) (numOfTokens + 1)
          else
            none

/-- Method `lookupTokens`: the walk starts at the root with no match; the result is the
output buffer after the call together with the returned `numOfTokens`. -/
def lookupTokens (dict : Dictionary) (words : List Text) (out : List (Option Token)) :
    Option (List (Option Token) × Nat) :=
  lookupLoop dict words [] out 0

/-- One mutating call on a dictionary. -/
inductive Op where
  | add (token : Token)
  | del (token : Token)
deriving DecidableEq, Repr

/-- Run a sequence of `addToken` and `delToken` calls, first call first; `none` as
soon as a call panics. -/
def runOps : Dictionary → List Op → Option Dictionary
  | dict, [] => some dict
  | dict, Op.add token :: rest => runOps (addToken dict token) rest
  | dict, Op.del token :: rest =>
    match delToken dict token with
    | none => none
    | some dict' => runOps dict' rest

/-- Sum of the `frequency` fields of a list of tokens. -/
def sumFrequency : List Token → Int
  | [] => 0
  | t :: rest => t.frequency + sumFrequency rest

/-- Largest `len(text)` over a list of tokens, `0` for the empty list. -/
def maxTextLength : List Token → Int
  | [] => 0
  | t :: rest => max (t.text.length : Int) (maxTextLength rest)

/-- The first `n` entries of an output buffer that hold a token. -/
def matched (res : List (Option Token) × Nat) : List Token :=
  (res.1.take res.2).filterMap id

/-! ### Sample data -/

/-- UTF-8 bytes of the symbol "中". -/
def symZhong : Text := [228, 184, 173]

/-- UTF-8 bytes of the symbol "国". -/
def symGuo : Text := [229, 155, 189]

/-- UTF-8 bytes of the symbol "人". -/
def symRen : Text := [228, 186, 186]

/-- UTF-8 bytes of the symbol "民". -/
def symMin : Text := [230, 176, 145]

/-- The token "中" with frequency 5. -/
def tokZhong : Token := { text := [symZhong], frequency := 5 }

/-- The token "中国" with frequency 10. -/
def tokZhongGuo : Token := { text := [symZhong, symGuo], frequency := 10 }

/-- The token "中国人" with frequency 3. -/
def tokZhongGuoRen : Token := { text := [symZhong, symGuo, symRen], frequency := 3 }

/-- The token "a" with frequency 1. -/
def tokA : Token := { text := [[97]], frequency := 1 }

/-- The token "b" with frequency 2. -/
def tokB : Token := { text := [[98]], frequency := 2 }

/-- The token "c" with frequency 4. -/
def tokC : Token := { text := [[99]], frequency := 4 }

/-- The token "d" with frequency 8. -/
def tokD : Token := { text := [[100]], frequency := 8 }

/-- The token "e" with frequency 16. -/
def tokE : Token := { text := [[101]], frequency := 16 }

/-- The dictionary after `addToken` of "a", "b", "c", "d", "e" and then `delToken` of
"a" and of "b": the second call has taken "c" out of the store, and the trie still
holds the key of "c" with the value 2. -/
def dictBDE : Dictionary :=
  { trie := ⟨[([99], 2), ([100], 3), ([101], 4)]⟩, maxTokenLength := 1,
    tokens := [tokB, tokD, tokE], totalFrequency := 28 }

/-- The dictionary after `addToken` of "a", "b", "c" and then `delToken` of "a" and
of "b": the store holds "b" alone, the trie holds the key of "c" alone. -/
def dictBStale : Dictionary :=
  { trie := ⟨[([99], 2)]⟩, maxTokenLength := 1, tokens := [tokB], totalFrequency := 4 }

/-- The dictionary after `addToken` of "a", "b", "c" in that order. -/
def dictABC : Dictionary :=
  { trie := ⟨[([97], 0), ([98], 1), ([99], 2)]⟩, maxTokenLength := 1,
    tokens := [tokA, tokB, tokC], totalFrequency := 7 }

/-- The dictionary after `addToken` of "a", "b", "c" and then `delToken` of "a": the
store has shifted down, the trie values have not. -/
def dictBC : Dictionary :=
  { trie := ⟨[([98], 1), ([99], 2)]⟩, maxTokenLength := 1,
    tokens := [tokB, tokC], totalFrequency := 6 }

/-- The dictionary after `addToken` of "a", "b" and then `delToken` of "a". -/
def dictB : Dictionary :=
  { trie := ⟨[([98], 1)]⟩, maxTokenLength := 1, tokens := [tokB], totalFrequency := 2 }

/-- The dictionary after `addToken` of "中", "中国", "中国人" in that order. -/
def dictZhong : Dictionary :=
  addToken (addToken (addToken NewDictionary tokZhong) tokZhongGuo) tokZhongGuoRen

/-- A mathematical integer that an `int64` can hold. -/
def inInt64 (x : Int) : Prop :=
  -(2 ^ 63) ≤ x ∧ x < 2 ^ 63

instance (x : Int) : Decidable (inInt64 x) :=
  inferInstanceAs (Decidable (-(2 ^ 63) ≤ x ∧ x < 2 ^ 63))

/-- The dictionary after `addToken` of "中", "中国", "中国人" and then `delToken` of
"中国": the token "中国人" has moved to slot 1 of the store, its trie value is
still 2. -/
def dictZhongRen : Dictionary :=
  { trie := ⟨[(symZhong, 0), (symZhong ++ symGuo ++ symRen, 2)]⟩, maxTokenLength := 3,
    tokens := [tokZhong, tokZhongGuoRen], totalFrequency := 8 }

/-- The dictionary after `addToken` of "中", "中国" and then `delToken` of "中国":
`maxTokenLength` is still 2. -/
def dictZhongOnly : Dictionary :=
  { trie := ⟨[(symZhong, 0)]⟩, maxTokenLength := 2, tokens := [tokZhong],
    totalFrequency := 5 }

/-- A dictionary built from `NewDictionary` by `addToken` calls only, first token
of the list first. -/
def addTokens (toks : List Token) : Dictionary :=
  toks.foldl addToken NewDictionary

/-- Every stored text is at most `maxTokenLength` long. -/
def lengthBound (dict : Dictionary) : Prop :=
  ∀ t ∈ dict.tokens, (t.text.length : Int) ≤ dict.maxTokenLength

instance (dict : Dictionary) : Decidable (lengthBound dict) :=
  inferInstanceAs (Decidable (∀ t ∈ dict.tokens, (t.text.length : Int) ≤ dict.maxTokenLength))

/-- The trie part of the loop of `lookupTokens`: the values of the accepting states
that the walk over `words` meets from the state `id` on, up to the first word
without a transition. -/
def walkValues (trie : Cedar) : List Text → List Nat → List Nat
  | [], _ => []
  | word :: rest, id =>
    match trie.Jump word id with
    | none => []
    | some id' =>
      match trie.Value id' with
      | none => walkValues trie rest id'
      | some value => value :: walkValues trie rest id'

/-- The number of non-empty prefixes `words[0..k]` of the input for which the bytes
`acc` followed by the byte encoding of the prefix are a key of the trie. -/
def countKeys (trie : Cedar) (acc : List Nat) (words : List Text) : Nat :=
  ((List.range words.length).filter (fun k =>
      (trie.Get (acc ++ textSliceToBytes (words.take (k + 1)))).isSome)).length

/-- The number of matching prefixes of `words`: the non-empty prefixes whose byte
encoding is a key of the trie. -/
def matchCount (dict : Dictionary) (words : List Text) : Nat :=
  countKeys dict.trie [] words

/-- The stored tokens whose key (the byte encoding of their text) equals the byte
encoding of a non-empty prefix `words[0..k]` of the input, by increasing `k`. -/
def prefixKeyMatches (tokens : List Token) (words : List Text) : List Token :=
  (List.range words.length).flatMap (fun k =>
    tokens.filter (fun t =>
      decide (textSliceToBytes t.text = textSliceToBytes (words.take (k + 1)))))

/-- The same list word by word: `acc` is the encoding of the words already
consumed. -/
def matchesFrom (tokens : List Token) : List Nat → List Text → List Token
  | _, [] => []
  | acc, word :: rest =>
    tokens.filter (fun t => decide (textSliceToBytes t.text = acc ++ word))
      ++ matchesFrom tokens (acc ++ word) rest

/-- The output buffer after the tokens `ms` have been written to the entries `n`,
`n + 1`, ... in turn. -/
def writeAll : List (Option Token) → Nat → List Token → List (Option Token)
  | out, _, [] => out
  | out, n, t :: ms => writeAll (out.set n (some t)) (n + 1) ms

/-- The trie and the store agree: every trie value is the subscript of a stored
token with that key, and the key of every stored token maps to its subscript. -/
def Consistent (dict : Dictionary) : Prop :=
  (∀ key v, dict.trie.Get key = some v →
      ∃ t, dict.tokens[v]? = some t ∧ textSliceToBytes t.text = key)
    ∧ (∀ i t, dict.tokens[i]? = some t → dict.trie.Get (textSliceToBytes t.text) = some i)

/-! ### Helper lemmas -/

/-- The literal `dictABC` is the state the three `addToken` calls produce. -/
theorem dictABC_reached :
    runOps NewDictionary [Op.add tokA, Op.add tokB, Op.add tokC] = some dictABC := by
  decide

/-- The literal `dictBC` is the state reached by deleting "a" after the three
`addToken` calls. -/
theorem dictBC_reached :
    runOps NewDictionary [Op.add tokA, Op.add tokB, Op.add tokC, Op.del tokA] = some dictBC := by
  decide

/-- The literal `dictB` is the state reached by adding "a", "b" and deleting "a". -/
theorem dictB_reached :
    runOps NewDictionary [Op.add tokA, Op.add tokB, Op.del tokA] = some dictB := by
  decide

/-- Wrapping does nothing to a value that fits in an `int64`. -/
theorem wrapInt64_of_inRange (x : Int) (h1 : -(2 ^ 63) ≤ x) (h2 : x < 2 ^ 63) :
    wrapInt64 x = x := by
  unfold wrapInt64
  omega

/-- After inserting a key that was not stored, `Get` returns the inserted value. -/
theorem Cedar.Get_Insert_fresh (da : Cedar) (key : List Nat) (value : Nat)
    (h : da.Get key = none) : (da.Insert key value).Get key = some value := by
  have hfind : da.entries.find? (fun e => decide (e.1 = key)) = none := by
    simpa [Cedar.Get] using h
  simp [Cedar.Insert, h, Cedar.Get, List.find?_append, hfind]

/-! ### Claims -/

/-- C1: after a removal `lookupTokens` does not return the live tokens whose text
is a prefix of the input.  In the state reached by adding "a", "b", "c" and deleting
"a", the store is `["b", "c"]`; looking up the input "b" returns the token "c",
whose text is not a prefix of the input, and does not return the live token "b",
whose text is one. -/
theorem lookupTokens_after_delToken_returns_other_token :
    runOps NewDictionary [Op.add tokA, Op.add tokB, Op.add tokC, Op.del tokA] = some dictBC
      ∧ dictBC.tokens = [tokB, tokC]
      ∧ lookupTokens dictBC [[98]] [none] = some ([some tokC], 1)
      ∧ tokB.text <+: [[98]]
      ∧ ¬ tokC.text <+: [[98]] := by
  refine ⟨dictBC_reached, by decide, by decide, by decide, by decide⟩

/-- C2: `TotalFrequency()` is not the sum of the frequencies of the stored tokens
after two removals.  Adding "a" (1), "b" (2), "c" (4) and deleting "a" then "b"
leaves the single token "b" (frequency 2) in the store while `TotalFrequency()`
is 4. -/
theorem totalFrequency_after_two_delToken :
    (runOps NewDictionary
        [Op.add tokA, Op.add tokB, Op.add tokC, Op.del tokA, Op.del tokB]).map
      (fun dict => (dict.tokens, TotalFrequency dict, sumFrequency dict.tokens))
      = some ([tokB], 4, 2) := by
  decide

/-- C3: removing the only token of maximal length does not lower
`MaxTokenLength()`.  With "中" and "中国" stored, deleting "中国" leaves
`MaxTokenLength()` at 2 although the longest remaining text has length 1; with only
"中" stored, deleting it leaves 1 although nothing remains; and in the scenario of
the claim (all three tokens added in order, "中国" deleted) deleting "中国人"
panics. -/
theorem maxTokenLength_not_lowered_by_delToken :
    (runOps NewDictionary [Op.add tokZhong, Op.add tokZhongGuo, Op.del tokZhongGuo]).map
        (fun dict => (dict.tokens, MaxTokenLength dict, maxTextLength dict.tokens))
        = some ([tokZhong], 2, 1)
      ∧ (runOps NewDictionary [Op.add tokZhong, Op.del tokZhong]).map
        (fun dict => (dict.tokens, MaxTokenLength dict, maxTextLength dict.tokens))
        = some ([], 1, 0)
      ∧ (runOps NewDictionary
          [Op.add tokZhong, Op.add tokZhongGuo, Op.add tokZhongGuoRen,
           Op.del tokZhongGuo]).isSome = true
      ∧ runOps NewDictionary
          [Op.add tokZhong, Op.add tokZhongGuo, Op.add tokZhongGuoRen,
           Op.del tokZhongGuo, Op.del tokZhongGuoRen] = none := by
  refine ⟨by decide, by decide, by decide, by decide⟩

/-- C4: identifiers are not stable under removal.  With "a", "b", "c" stored, the
key of "b" maps to identifier 1, which is the token "b"; after `delToken` of "a"
the key of "b" still maps to identifier 1, which is now the token "c". -/
theorem identifier_refers_to_other_token_after_delToken :
    runOps NewDictionary [Op.add tokA, Op.add tokB, Op.add tokC] = some dictABC
      ∧ dictABC.trie.Get (textSliceToBytes tokB.text) = some 1
      ∧ dictABC.tokens[1]? = some tokB
      ∧ delToken dictABC tokA = some dictBC
      ∧ dictBC.trie.Get (textSliceToBytes tokB.text) = some 1
      ∧ dictBC.tokens[1]? = some tokC := by
  refine ⟨dictABC_reached, by decide, by decide, by decide, by decide, by decide⟩

/-- C5: the trie keys and the stored tokens come apart.  After adding "a", "b", "c"
and deleting "a" then "b", the store holds the token "b" and the only key of the
trie is the encoding of "c": the stored token has no entry and the entry has no
stored token. -/
theorem trie_keys_differ_from_store_after_delToken :
    (runOps NewDictionary
        [Op.add tokA, Op.add tokB, Op.add tokC, Op.del tokA, Op.del tokB]).map
      (fun dict => (dict.tokens, dict.trie.entries.map (fun e => e.1),
        dict.trie.Get (textSliceToBytes tokB.text)))
      = some ([tokB], [textSliceToBytes tokC.text], none) := by
  decide

/-- C6: `addToken` of a token whose key is already in the trie returns the
dictionary unchanged: the same store, trie, `NumTokens()`, `TotalFrequency()` and
`MaxTokenLength()`, whatever the frequency of the token. -/
theorem addToken_existing_key_unchanged (dict : Dictionary) (token : Token)
    (h : (dict.trie.Get (textSliceToBytes token.text)).isSome = true) :
    addToken dict token = dict
      ∧ NumTokens (addToken dict token) = NumTokens dict
      ∧ TotalFrequency (addToken dict token) = TotalFrequency dict
      ∧ MaxTokenLength (addToken dict token) = MaxTokenLength dict
      ∧ (addToken dict token).tokens = dict.tokens
      ∧ (addToken dict token).trie = dict.trie := by
  have hEq : addToken dict token = dict := by
    obtain ⟨v, hv⟩ := Option.isSome_iff_exists.mp h
    simp [addToken, hv]
  simp [hEq]

/-- Instance of C6: with "中" (5) stored, adding "中" with frequency 99 changes
nothing and the stored frequency stays 5. -/
theorem addToken_existing_key_unchanged_witness :
    (((addToken NewDictionary tokZhong).trie.Get
          (textSliceToBytes ({ text := [symZhong], frequency := 99 } : Token).text)).isSome = true)
      ∧ addToken (addToken NewDictionary tokZhong) { text := [symZhong], frequency := 99 }
          = addToken NewDictionary tokZhong
      ∧ (addToken (addToken NewDictionary tokZhong)
          { text := [symZhong], frequency := 99 }).tokens = [tokZhong] :=
  ⟨by decide,
   (addToken_existing_key_unchanged (addToken NewDictionary tokZhong)
      { text := [symZhong], frequency := 99 } (by decide)).1,
   by decide⟩

/-- C7: `delToken` of a token whose key is not in the trie returns normally (no
panic) with the dictionary unchanged: the same store, trie, `NumTokens()`,
`TotalFrequency()` and `MaxTokenLength()`. -/
theorem delToken_absent_key_unchanged (dict : Dictionary) (token : Token)
    (h : dict.trie.Get (textSliceToBytes token.text) = none) :
    delToken dict token = some dict
      ∧ (delToken dict token).map NumTokens = some (NumTokens dict)
      ∧ (delToken dict token).map TotalFrequency = some (TotalFrequency dict)
      ∧ (delToken dict token).map MaxTokenLength = some (MaxTokenLength dict)
      ∧ (delToken dict token).map (fun d => d.tokens) = some dict.tokens
      ∧ (delToken dict token).map (fun d => d.trie) = some dict.trie := by
  have hEq : delToken dict token = some dict := by
    simp [delToken, h]
  simp [hEq]

/-- Instance of C7: with only "中" stored, deleting "中国" changes nothing. -/
theorem delToken_absent_key_unchanged_witness :
    (addToken NewDictionary tokZhong).trie.Get (textSliceToBytes tokZhongGuo.text) = none
      ∧ delToken (addToken NewDictionary tokZhong) tokZhongGuo
          = some (addToken NewDictionary tokZhong) :=
  ⟨by decide,
   (delToken_absent_key_unchanged (addToken NewDictionary tokZhong) tokZhongGuo (by decide)).1⟩

/-- C8: `addToken` of a token whose key is not in the trie appends the token to the
store, so `NumTokens()` grows by 1; adds `token.frequency` to `TotalFrequency()` in
`int64` arithmetic, which is the exact sum whenever that sum fits in an `int64`;
sets `MaxTokenLength()` to the larger of its old value and `len(token.text)`; and
maps the key to the identifier `NumTokens()` of before the call, at which the store
now holds exactly this token, every older slot being as before. -/
theorem addToken_fresh_key (dict : Dictionary) (token : Token)
    (h : dict.trie.Get (textSliceToBytes token.text) = none) :
    NumTokens (addToken dict token) = NumTokens dict + 1
      ∧ TotalFrequency (addToken dict token)
          = wrapInt64 (TotalFrequency dict + token.frequency)
      ∧ (inInt64 (TotalFrequency dict + token.frequency) →
          TotalFrequency (addToken dict token) = TotalFrequency dict + token.frequency)
      ∧ MaxTokenLength (addToken dict token)
          = max (MaxTokenLength dict) (token.text.length : Int)
      ∧ (addToken dict token).trie.Get (textSliceToBytes token.text)
          = some (NumTokens dict)
      ∧ (addToken dict token).tokens[NumTokens dict]? = some token
      ∧ (∀ i, i < NumTokens dict → (addToken dict token).tokens[i]? = dict.tokens[i]?) := by
  have hAdd : addToken dict token =
      { trie := dict.trie.Insert (textSliceToBytes token.text) (NumTokens dict)
        tokens := dict.tokens ++ [token]
        totalFrequency := wrapInt64 (dict.totalFrequency + token.frequency)
        maxTokenLength :=
          if (token.text.length : Int) > dict.maxTokenLength then (token.text.length : Int)
          else dict.maxTokenLength } := by
    simp [addToken, h]
  rw [hAdd]
  refine ⟨?_, ?_, ?_, ?_, ?_, ?_, ?_⟩
  · simp [NumTokens]
  · simp [TotalFrequency]
  · intro hr
    simpa [TotalFrequency] using wrapInt64_of_inRange _ hr.1 hr.2
  · simp only [MaxTokenLength]
    split
    · omega
    · omega
  · exact Cedar.Get_Insert_fresh _ _ _ h
  · simp [NumTokens]
  · intro i hi
    simp only [NumTokens] at hi
    simp [List.getElem?_append_left hi]

/-- Instance of C8: with "中" (5) stored, adding "中国" (10) gives 2 tokens, total
frequency 15, maximal length 2 and the new token at index 1. -/
theorem addToken_fresh_key_witness :
    (addToken NewDictionary tokZhong).trie.Get (textSliceToBytes tokZhongGuo.text) = none
      ∧ NumTokens (addToken (addToken NewDictionary tokZhong) tokZhongGuo) = 1 + 1
      ∧ TotalFrequency (addToken (addToken NewDictionary tokZhong) tokZhongGuo) = 5 + 10
      ∧ MaxTokenLength (addToken (addToken NewDictionary tokZhong) tokZhongGuo) = max 1 2
      ∧ (addToken (addToken NewDictionary tokZhong) tokZhongGuo).tokens[1]?
          = some tokZhongGuo :=
  ⟨by decide,
   (addToken_fresh_key (addToken NewDictionary tokZhong) tokZhongGuo (by decide)).1,
   (addToken_fresh_key (addToken NewDictionary tokZhong) tokZhongGuo (by decide)).2.2.1
     (by decide),
   (addToken_fresh_key (addToken NewDictionary tokZhong) tokZhongGuo (by decide)).2.2.2.1,
   (addToken_fresh_key (addToken NewDictionary tokZhong) tokZhongGuo (by decide)).2.2.2.2.2.1⟩

/-- C9: on a reachable state `delToken` of a present token can remove another
token or panic.  After adding "a", "b", "c" and deleting "a", the key of "b" is in
the trie (identifier 1); `delToken` of "b" removes the key but takes the token "c"
out of the store and leaves "b" in it.  After adding "a", "b" and deleting "a", the
key of "b" is in the trie and `delToken` of "b" panics. -/
theorem delToken_present_key_removes_other_token_or_panics :
    runOps NewDictionary [Op.add tokA, Op.add tokB, Op.add tokC, Op.del tokA] = some dictBC
      ∧ dictBC.trie.Get (textSliceToBytes tokB.text) = some 1
      ∧ (delToken dictBC tokB).map (fun d => (d.tokens, d.trie.entries, TotalFrequency d))
          = some ([tokB], [([99], 2)], 4)
      ∧ runOps NewDictionary [Op.add tokA, Op.add tokB, Op.del tokA] = some dictB
      ∧ dictB.trie.Get (textSliceToBytes tokB.text) = some 1
      ∧ delToken dictB tokB = none := by
  refine ⟨dictBC_reached, by decide, by decide, dictB_reached, by decide, by decide⟩

/-- C10: after `addToken` of "中" (5), "中国" (10), "中国人" (3) on a new
dictionary, `lookupTokens` on the four symbols of "中国人民" with a buffer of four
`nil` entries writes "中", "中国", "中国人" to the first three entries in that
order and returns 3, and `NumTokens()` is 3, `TotalFrequency()` is 18 and
`MaxTokenLength()` is 3. -/
theorem scenario_zhong_guo_ren_min :
    runOps NewDictionary [Op.add tokZhong, Op.add tokZhongGuo, Op.add tokZhongGuoRen]
        = some dictZhong
      ∧ lookupTokens dictZhong [symZhong, symGuo, symRen, symMin] [none, none, none, none]
        = some ([some tokZhong, some tokZhongGuo, some tokZhongGuoRen, none], 3)
      ∧ (lookupTokens dictZhong [symZhong, symGuo, symRen, symMin]
          [none, none, none, none]).map matched
        = some [tokZhong, tokZhongGuo, tokZhongGuoRen]
      ∧ NumTokens dictZhong = 3
      ∧ TotalFrequency dictZhong = 18
      ∧ MaxTokenLength dictZhong = 3 := by
  refine ⟨by decide, by decide, by decide, by decide, by decide, by decide⟩

/-! ### Aggregates of dictionaries built by `addToken` only -/

/-- The literal `dictZhongRen` is the state reached by deleting "中国" from
`dictZhong`. -/
theorem dictZhongRen_reached : delToken dictZhong tokZhongGuo = some dictZhongRen := by
  decide

/-- The largest text length of a list of tokens is not negative. -/
theorem maxTextLength_nonneg (l : List Token) : 0 ≤ maxTextLength l := by
  induction l with
  | nil => simp [maxTextLength]
  | cons t rest ih =>
    simp only [maxTextLength]
    omega

/-- Appending one token takes the maximum with its length. -/
theorem maxTextLength_append_singleton (l : List Token) (t : Token) :
    maxTextLength (l ++ [t]) = max (maxTextLength l) (t.text.length : Int) := by
  induction l with
  | nil =>
    simp only [List.nil_append, maxTextLength]
    omega
  | cons x rest ih =>
    rw [List.cons_append]
    simp only [maxTextLength]
    rw [ih]
    omega

/-- The result of `addToken` when the key is already in the trie. -/
theorem addToken_of_some (dict : Dictionary) (token : Token) (v : Nat)
    (h : dict.trie.Get (textSliceToBytes token.text) = some v) :
    addToken dict token = dict := by
  simp [addToken, h]

/-- The result of `addToken` when the key is not in the trie. -/
theorem addToken_of_none (dict : Dictionary) (token : Token)
    (h : dict.trie.Get (textSliceToBytes token.text) = none) :
    addToken dict token =
      { trie := dict.trie.Insert (textSliceToBytes token.text) (NumTokens dict)
        tokens := dict.tokens ++ [token]
        totalFrequency := wrapInt64 (dict.totalFrequency + token.frequency)
        maxTokenLength :=
          if (token.text.length : Int) > dict.maxTokenLength then (token.text.length : Int)
          else dict.maxTokenLength } := by
  simp [addToken, h]

/-- One `addToken` keeps `maxTokenLength` equal to the largest stored length. -/
theorem addToken_maxTokenLength_exact (dict : Dictionary) (token : Token)
    (h : dict.maxTokenLength = maxTextLength dict.tokens) :
    (addToken dict token).maxTokenLength = maxTextLength (addToken dict token).tokens := by
  cases hg : dict.trie.Get (textSliceToBytes token.text) with
  | some v =>
    rw [addToken_of_some dict token v hg]
    exact h
  | none =>
    rw [addToken_of_none dict token hg]
    simp only [maxTextLength_append_singleton, h]
    split <;> omega

/-- Any number of `addToken` calls keeps `maxTokenLength` equal to the largest stored
length. -/
theorem foldl_addToken_maxTokenLength_exact (toks : List Token) (dict : Dictionary)
    (h : dict.maxTokenLength = maxTextLength dict.tokens) :
    (toks.foldl addToken dict).maxTokenLength
      = maxTextLength (toks.foldl addToken dict).tokens := by
  induction toks generalizing dict with
  | nil => simpa using h
  | cons t rest ih =>
    simp only [List.foldl_cons]
    exact ih _ (addToken_maxTokenLength_exact dict t h)

/-- The rescan loop returns its start value when no token is longer than it. -/
theorem rescan_eq_of_le (l : List Token) (m : Int)
    (h : ∀ t ∈ l, (t.text.length : Int) ≤ m) : rescan l m = m := by
  induction l with
  | nil => rfl
  | cons t rest ih =>
    have ht : (t.text.length : Int) ≤ m := h t (List.mem_cons_self _ _)
    have hrest : ∀ u ∈ rest, (u.text.length : Int) ≤ m :=
      fun u hu => h u (List.mem_cons_of_mem _ hu)
    simp only [rescan]
    rw [if_neg (by omega)]
    exact ih hrest

/-- The rescan loop never returns less than its start value. -/
theorem le_rescan (l : List Token) (m : Int) : m ≤ rescan l m := by
  induction l generalizing m with
  | nil => simp [rescan]
  | cons t rest ih =>
    simp only [rescan]
    split
    · have := ih (t.text.length : Int)
      omega
    · exact ih m

/-- A token of the store after the slice expression of `delToken` was in the store
before. -/
theorem mem_of_mem_take_append_drop (l : List Token) (i : Nat) (t : Token)
    (h : t ∈ l.take i ++ l.drop (i + 1)) : t ∈ l := by
  rcases List.mem_append.mp h with h1 | h1
  · exact List.mem_of_mem_take h1
  · exact List.mem_of_mem_drop h1

/-- What a returning `delToken` does to the store and to `maxTokenLength`: the store
is unchanged or loses one slot, and `maxTokenLength` is unchanged or the result of
the rescan loop over the new store. -/
theorem delToken_some_cases (dict : Dictionary) (token : Token) (d : Dictionary)
    (h : delToken dict token = some d) :
    (d.tokens = dict.tokens
        ∨ ∃ i, d.tokens = dict.tokens.take i ++ dict.tokens.drop (i + 1))
      ∧ (d.maxTokenLength = dict.maxTokenLength
        ∨ d.maxTokenLength = rescan d.tokens dict.maxTokenLength) := by
  unfold delToken at h
  cases hg : dict.trie.Get (textSliceToBytes token.text) with
  | none =>
    simp only [hg] at h
    cases h
    exact ⟨Or.inl rfl, Or.inl rfl⟩
  | some i =>
    simp only [hg] at h
    split at h
    · cases hd : dict.trie.Delete (textSliceToBytes token.text) with
      | none =>
        simp only [hd] at h
        cases h
        exact ⟨Or.inr ⟨i, rfl⟩, Or.inl rfl⟩
      | some trie =>
        simp only [hd] at h
        split at h
        · cases h
          exact ⟨Or.inr ⟨i, rfl⟩, Or.inl rfl⟩
        · cases h
          exact ⟨Or.inr ⟨i, rfl⟩, Or.inr rfl⟩
    · cases h

/-- A returning `delToken` keeps the length bound and leaves `maxTokenLength` as it
was. -/
theorem delToken_lengthBound (dict : Dictionary) (token : Token) (d : Dictionary)
    (hBound : lengthBound dict) (h : delToken dict token = some d) :
    d.maxTokenLength = dict.maxTokenLength ∧ lengthBound d := by
  obtain ⟨hTok, hMax⟩ := delToken_some_cases dict token d h
  have hSub : ∀ t ∈ d.tokens, t ∈ dict.tokens := by
    intro t ht
    rcases hTok with hEq | ⟨i, hEq⟩
    · rw [hEq] at ht
      exact ht
    · rw [hEq] at ht
      exact mem_of_mem_take_append_drop _ _ _ ht
  have hLe : ∀ t ∈ d.tokens, (t.text.length : Int) ≤ dict.maxTokenLength :=
    fun t ht => hBound t (hSub t ht)
  have hSame : d.maxTokenLength = dict.maxTokenLength := by
    rcases hMax with hEq | hEq
    · exact hEq
    · rw [hEq]
      exact rescan_eq_of_le _ _ hLe
  refine ⟨hSame, ?_⟩
  intro t ht
  rw [hSame]
  exact hLe t ht

/-- One `addToken` keeps the length bound and does not lower `maxTokenLength`. -/
theorem addToken_lengthBound (dict : Dictionary) (token : Token) :
    dict.maxTokenLength ≤ (addToken dict token).maxTokenLength
      ∧ (lengthBound dict → lengthBound (addToken dict token)) := by
  cases hg : dict.trie.Get (textSliceToBytes token.text) with
  | some v =>
    rw [addToken_of_some dict token v hg]
    exact ⟨le_refl _, fun hB => hB⟩
  | none =>
    rw [addToken_of_none dict token hg]
    refine ⟨?_, ?_⟩
    · simp only
      split <;> omega
    · intro hB t ht
      simp only at ht ⊢
      rcases List.mem_append.mp ht with h1 | h1
      · have := hB t h1
        split <;> omega
      · have hEq : t = token := by simpa using h1
        subst hEq
        split <;> omega

/-- Every state reached from `NewDictionary` by `addToken` and `delToken` calls
satisfies the length bound. -/
theorem runOps_lengthBound (ops : List Op) (dict d : Dictionary)
    (hBound : lengthBound dict) (h : runOps dict ops = some d) : lengthBound d := by
  induction ops generalizing dict with
  | nil =>
    simp only [runOps] at h
    cases h
    exact hBound
  | cons op rest ih =>
    cases op with
    | add token =>
      simp only [runOps] at h
      exact ih _ ((addToken_lengthBound dict token).2 hBound) h
    | del token =>
      simp only [runOps] at h
      cases hd : delToken dict token with
      | none => simp [hd] at h
      | some d1 =>
        simp only [hd] at h
        exact ih _ (delToken_lengthBound dict token d1 hBound hd).2 h

/-! ### The trie -/

/-- A successful `Get` comes from an entry of the trie. -/
theorem Cedar.mem_of_Get (da : Cedar) (key : List Nat) (v : Nat)
    (h : da.Get key = some v) : (key, v) ∈ da.entries := by
  unfold Cedar.Get at h
  cases hf : da.entries.find? (fun e => decide (e.1 = key)) with
  | none => simp [hf] at h
  | some e =>
    simp only [hf, Option.map_some', Option.some.injEq] at h
    have hm := List.mem_of_find?_eq_some hf
    have hk : e.1 = key := by simpa using List.find?_some hf
    have he : e = (key, v) := by
      cases e
      simp_all
    rw [← he]
    exact hm

/-- No key that starts with a path absent from the trie is stored. -/
theorem Cedar.Get_none_of_no_key (da : Cedar) (p key : List Nat)
    (h : ∀ e ∈ da.entries, ¬ p <+: e.1) (hp : p <+: key) : da.Get key = none := by
  cases hg : da.Get key with
  | none => rfl
  | some v => exact absurd hp (h _ (Cedar.mem_of_Get da key v hg))

/-- A path is a state of the trie exactly when a stored key starts with it. -/
theorem Cedar.hasPath_iff (da : Cedar) (p : List Nat) :
    da.hasPath p = true ↔ ∃ e ∈ da.entries, p <+: e.1 := by
  simp [Cedar.hasPath, List.any_eq_true, List.isPrefixOf_iff_prefix]

/-- A successful `Jump` ends at the source path extended by the bytes followed. -/
theorem Cedar.Jump_eq_append (da : Cedar) (w src dst : List Nat)
    (h : da.Jump w src = some dst) : dst = src ++ w := by
  induction w generalizing src with
  | nil =>
    simp only [Cedar.Jump, Option.some.injEq] at h
    simp [h]
  | cons b path ih =>
    simp only [Cedar.Jump] at h
    split at h
    · have := ih _ h
      simpa using this
    · cases h

/-- A failed `Jump` means that no stored key starts with the extended path. -/
theorem Cedar.Jump_none_no_key (da : Cedar) (w src : List Nat)
    (h : da.Jump w src = none) : ∀ e ∈ da.entries, ¬ (src ++ w) <+: e.1 := by
  induction w generalizing src with
  | nil => simp [Cedar.Jump] at h
  | cons b path ih =>
    simp only [Cedar.Jump] at h
    split at h
    · have := ih _ h
      simpa using this
    · rename_i hno
      intro e he hpre
      apply hno
      rw [Cedar.hasPath_iff]
      refine ⟨e, he, List.IsPrefix.trans ?_ hpre⟩
      exact ⟨path, by simp⟩

/-- Inserting a fresh key leaves the value of every other key as it was. -/
theorem Cedar.Get_Insert_fresh_ne (da : Cedar) (key other : List Nat) (value : Nat)
    (h : da.Get key = none) (hne : other ≠ key) :
    (da.Insert key value).Get other = da.Get other := by
  have hne2 : ¬ key = other := fun hk => hne hk.symm
  have hIns : da.Insert key value = ⟨da.entries ++ [(key, value)]⟩ := by
    simp [Cedar.Insert, h]
  rw [hIns]
  simp [Cedar.Get, List.find?_append, hne2]

/-! ### Agreement of the trie and the store -/

/-- The new dictionary is consistent. -/
theorem Consistent_NewDictionary : Consistent NewDictionary := by
  constructor
  · intro key v h
    simp [NewDictionary, Cedar.New, Cedar.Get] at h
  · intro i t h
    simp [NewDictionary] at h

/-- One `addToken` keeps the trie and the store in agreement. -/
theorem Consistent_addToken (dict : Dictionary) (token : Token) (hC : Consistent dict) :
    Consistent (addToken dict token) := by
  cases hg : dict.trie.Get (textSliceToBytes token.text) with
  | some v =>
    rw [addToken_of_some dict token v hg]
    exact hC
  | none =>
    rw [addToken_of_none dict token hg]
    obtain ⟨h1, h2⟩ := hC
    constructor
    · intro key v hv
      simp only at hv ⊢
      by_cases hk : key = textSliceToBytes token.text
      · subst hk
        rw [Cedar.Get_Insert_fresh _ _ _ hg] at hv
        simp only [Option.some.injEq] at hv
        subst hv
        exact ⟨token, by simp [NumTokens], rfl⟩
      · rw [Cedar.Get_Insert_fresh_ne _ _ _ _ hg hk] at hv
        obtain ⟨t, ht, hkey⟩ := h1 key v hv
        have hlt : v < dict.tokens.length := (List.getElem?_eq_some_iff.mp ht).1
        exact ⟨t, by rw [List.getElem?_append_left hlt]; exact ht, hkey⟩
    · intro i t hi
      simp only at hi ⊢
      by_cases hlt : i < dict.tokens.length
      · rw [List.getElem?_append_left hlt] at hi
        have hget := h2 i t hi
        have hne : textSliceToBytes t.text ≠ textSliceToBytes token.text := by
          intro heq
          rw [heq, hg] at hget
          cases hget
        rw [Cedar.Get_Insert_fresh_ne _ _ _ _ hg hne]
        exact hget
      · have hge : dict.tokens.length ≤ i := Nat.le_of_not_lt hlt
        rw [List.getElem?_append_right hge] at hi
        have hi0 : i - dict.tokens.length = 0 := by
          by_contra hne
          obtain ⟨k, hk⟩ := Nat.exists_eq_succ_of_ne_zero hne
          rw [hk] at hi
          simp at hi
        rw [hi0] at hi
        simp only [List.getElem?_cons_zero, Option.some.injEq] at hi
        subst hi
        have hEq : i = NumTokens dict := by
          simp only [NumTokens]
          omega
        rw [hEq]
        exact Cedar.Get_Insert_fresh _ _ _ hg

/-- Any number of `addToken` calls keeps the trie and the store in agreement. -/
theorem Consistent_foldl_addToken (toks : List Token) (dict : Dictionary)
    (hC : Consistent dict) : Consistent (toks.foldl addToken dict) := by
  induction toks generalizing dict with
  | nil => exact hC
  | cons t rest ih =>
    simp only [List.foldl_cons]
    exact ih _ (Consistent_addToken dict t hC)

/-- A dictionary built by `addToken` calls only is consistent. -/
theorem Consistent_addTokens (toks : List Token) : Consistent (addTokens toks) :=
  Consistent_foldl_addToken toks NewDictionary Consistent_NewDictionary

/-- In a list where only the slot `v` can satisfy `p`, and does, filtering by `p`
leaves exactly the element of that slot. -/
theorem filter_eq_singleton (l : List Token) (p : Token → Bool) (v : Nat) (t : Token)
    (h1 : l[v]? = some t) (h2 : p t = true)
    (h3 : ∀ i u, l[i]? = some u → p u = true → i = v) : l.filter p = [t] := by
  induction l generalizing v with
  | nil => simp at h1
  | cons x rest ih =>
    cases v with
    | zero =>
      simp only [List.getElem?_cons_zero, Option.some.injEq] at h1
      subst h1
      have hrest : rest.filter p = [] := by
        rw [List.filter_eq_nil_iff]
        intro a ha hpa
        obtain ⟨k, hk⟩ := List.mem_iff_getElem?.mp ha
        have := h3 (k + 1) a (by simpa using hk) hpa
        omega
      simp [List.filter_cons, h2, hrest]
    | succ v' =>
      have hx : ¬ p x = true := by
        intro hpx
        have := h3 0 x (by simp) hpx
        omega
      have hrec := ih v' (by simpa using h1) (by
        intro i u hi hpu
        have := h3 (i + 1) u (by simpa using hi) hpu
        omega)
      simp [List.filter_cons, hx, hrec]

/-- In a consistent dictionary the tokens with a given stored key are exactly the
token at the subscript the trie holds for that key. -/
theorem Consistent.filter_key_of_some (dict : Dictionary) (hC : Consistent dict)
    (key : List Nat) (v : Nat) (t : Token) (hv : dict.trie.Get key = some v)
    (ht : dict.tokens[v]? = some t) :
    dict.tokens.filter (fun u => decide (textSliceToBytes u.text = key)) = [t] := by
  obtain ⟨t1, ht1, hkey⟩ := hC.1 key v hv
  have hEq : t1 = t := by
    rw [ht] at ht1
    cases ht1
    rfl
  subst hEq
  apply filter_eq_singleton _ _ v t1 ht (by simpa using hkey)
  intro i u hi hpu
  have hku : textSliceToBytes u.text = key := by simpa using hpu
  have := hC.2 i u hi
  rw [hku, hv] at this
  cases this
  rfl

/-- In a consistent dictionary no stored token has a key that the trie does not
hold. -/
theorem Consistent.filter_key_of_none (dict : Dictionary) (hC : Consistent dict)
    (key : List Nat) (hv : dict.trie.Get key = none) :
    dict.tokens.filter (fun u => decide (textSliceToBytes u.text = key)) = [] := by
  rw [List.filter_eq_nil_iff]
  intro u hu hpu
  have hku : textSliceToBytes u.text = key := by simpa using hpu
  obtain ⟨i, hi⟩ := List.mem_iff_getElem?.mp hu
  have := hC.2 i u hi
  rw [hku, hv] at this
  cases this

/-! ### The loop of `lookupTokens` -/

/-- Once the consumed bytes start with a path that no stored key starts with, no
stored token matches any longer prefix. -/
theorem matchesFrom_dead (dict : Dictionary) (hC : Consistent dict) (p : List Nat)
    (hno : ∀ e ∈ dict.trie.entries, ¬ p <+: e.1) (words : List Text) :
    ∀ acc : List Nat, p <+: acc → matchesFrom dict.tokens acc words = [] := by
  induction words with
  | nil =>
    intro acc _
    rfl
  | cons w rest ih =>
    intro acc hp
    have hp2 : p <+: acc ++ w := List.IsPrefix.trans hp (List.prefix_append _ _)
    simp only [matchesFrom]
    rw [Consistent.filter_key_of_none dict hC _ (Cedar.Get_none_of_no_key _ _ _ hno hp2),
      ih _ hp2]
    rfl

/-- From a state that no stored key passes through, the loop matches nothing, writes
nothing and does not panic, in any dictionary. -/
theorem lookupLoop_dead (dict : Dictionary) (words : List Text) :
    ∀ (id : List Nat) (out : List (Option Token)) (n : Nat),
      (∀ e ∈ dict.trie.entries, ¬ id <+: e.1) →
      lookupLoop dict words id out n = some (out, n) := by
  induction words with
  | nil =>
    intro id out n _
    rfl
  | cons w rest ih =>
    intro id out n hno
    cases hj : dict.trie.Jump w id with
    | none => simp [lookupLoop, hj]
    | some dst =>
      have hid := Cedar.Jump_eq_append _ _ _ _ hj
      subst hid
      have hv : dict.trie.Get (id ++ w) = none :=
        Cedar.Get_none_of_no_key _ _ _ hno (List.prefix_append _ _)
      have hno2 : ∀ e ∈ dict.trie.entries, ¬ (id ++ w) <+: e.1 :=
        fun e he hpre => hno e he (List.IsPrefix.trans (List.prefix_append _ _) hpre)
      simp only [lookupLoop, hj, Cedar.Value, hv]
      exact ih _ out n hno2

/-- In a consistent dictionary, with room in the buffer for one match per remaining
word, the loop returns normally: it has written the tokens of `matchesFrom` to the
buffer from entry `n` on and counted them. -/
theorem lookupLoop_consistent (dict : Dictionary) (hC : Consistent dict)
    (words : List Text) :
    ∀ (id : List Nat) (out : List (Option Token)) (n : Nat),
      n + words.length ≤ out.length →
      lookupLoop dict words id out n
        = some (writeAll out n (matchesFrom dict.tokens id words),
            n + (matchesFrom dict.tokens id words).length) := by
  induction words with
  | nil =>
    intro id out n _
    simp [lookupLoop, matchesFrom, writeAll]
  | cons w rest ih =>
    intro id out n hlen
    simp only [List.length_cons] at hlen
    cases hj : dict.trie.Jump w id with
    | none =>
      have hno := Cedar.Jump_none_no_key _ _ _ hj
      have hms : matchesFrom dict.tokens id (w :: rest) = [] := by
        simp only [matchesFrom]
        rw [Consistent.filter_key_of_none dict hC _
            (Cedar.Get_none_of_no_key _ _ _ hno (List.prefix_refl _)),
          matchesFrom_dead dict hC _ hno rest _ (List.prefix_refl _)]
        rfl
      rw [hms]
      simp [lookupLoop, hj, writeAll]
    | some dst =>
      have hid := Cedar.Jump_eq_append _ _ _ _ hj
      subst hid
      cases hv : dict.trie.Get (id ++ w) with
      | none =>
        have hrec := ih (id ++ w) out n (by omega)
        simp only [lookupLoop, hj, Cedar.Value, hv, matchesFrom]
        rw [Consistent.filter_key_of_none dict hC _ hv]
        simpa using hrec
      | some v =>
        obtain ⟨t, ht, _⟩ := hC.1 _ _ hv
        have hf := Consistent.filter_key_of_some dict hC _ v t hv ht
        have hrec := ih (id ++ w) (out.set n (some t)) (n + 1) (by
          rw [List.length_set]
          omega)
        simp only [lookupLoop, hj, Cedar.Value, hv, ht, matchesFrom, hf]
        rw [if_pos (by omega), hrec]
        simp only [List.singleton_append, writeAll, List.length_cons]
        congr 2
        omega

/-- The walk stops at the first word without a transition: the words from there on
do not change the result, in any dictionary. -/
theorem lookupLoop_stop (dict : Dictionary) (w : Text) (post : List Text)
    (pre : List Text) :
    ∀ (id : List Nat) (out : List (Option Token)) (n : Nat),
      dict.trie.Jump w (id ++ textSliceToBytes pre) = none →
      lookupLoop dict (pre ++ w :: post) id out n = lookupLoop dict pre id out n := by
  induction pre with
  | nil =>
    intro id out n hj
    simp only [textSliceToBytes, List.append_nil] at hj
    simp [lookupLoop, hj]
  | cons x rest ih =>
    intro id out n hj
    simp only [textSliceToBytes] at hj
    simp only [List.cons_append, lookupLoop]
    cases hx : dict.trie.Jump x id with
    | none => rfl
    | some dst =>
      have hid := Cedar.Jump_eq_append _ _ _ _ hx
      subst hid
      rw [← List.append_assoc] at hj
      simp only
      cases hv : dict.trie.Value (id ++ x) with
      | none =>
        simp only
        exact ih _ out n hj
      | some v =>
        simp only
        cases ht : dict.tokens[v]? with
        | none => rfl
        | some t =>
          simp only
          split
          · exact ih _ _ _ hj
          · rfl

/-- The loop counts at most one match per word, in any dictionary. -/
theorem lookupLoop_count_le (dict : Dictionary) (words : List Text) :
    ∀ (id : List Nat) (out : List (Option Token)) (n : Nat) (r : List (Option Token) × Nat),
      lookupLoop dict words id out n = some r → r.2 ≤ n + words.length := by
  induction words with
  | nil =>
    intro id out n r h
    simp only [lookupLoop, Option.some.injEq] at h
    subst h
    simp
  | cons x rest ih =>
    intro id out n r h
    simp only [lookupLoop] at h
    cases hx : dict.trie.Jump x id with
    | none =>
      simp only [hx, Option.some.injEq] at h
      subst h
      simp
    | some dst =>
      simp only [hx] at h
      cases hv : dict.trie.Value dst with
      | none =>
        simp only [hv] at h
        have := ih _ _ _ _ h
        simp only [List.length_cons]
        omega
      | some v =>
        simp only [hv] at h
        cases ht : dict.tokens[v]? with
        | none => simp [ht] at h
        | some t =>
          simp only [ht] at h
          split at h
          · have := ih _ _ _ _ h
            simp only [List.length_cons]
            omega
          · cases h

/-- When the accepting states still to come do not fit in what is left of the
buffer, the loop panics, in any dictionary. -/
theorem lookupLoop_overflow (dict : Dictionary) (words : List Text) :
    ∀ (id : List Nat) (out : List (Option Token)) (n : Nat),
      n ≤ out.length → out.length < n + (walkValues dict.trie words id).length →
      lookupLoop dict words id out n = none := by
  induction words with
  | nil =>
    intro id out n h1 h2
    simp only [walkValues, List.length_nil] at h2
    omega
  | cons x rest ih =>
    intro id out n h1 h2
    simp only [walkValues] at h2
    simp only [lookupLoop]
    cases hx : dict.trie.Jump x id with
    | none =>
      simp only [hx, List.length_nil] at h2
      omega
    | some dst =>
      simp only [hx] at h2 ⊢
      cases hv : dict.trie.Value dst with
      | none =>
        simp only [hv] at h2 ⊢
        exact ih _ _ _ h1 h2
      | some v =>
        simp only [hv, List.length_cons] at h2 ⊢
        cases ht : dict.tokens[v]? with
        | none => rfl
        | some t =>
          simp only
          split
          · apply ih
            · rw [List.length_set]
              omega
            · rw [List.length_set]
              omega
          · rfl

/-! ### The output buffer and the specification of the matches -/

/-- Writing entry `n` changes the first `n + 1` entries to the old first `n`
followed by the new entry. -/
theorem take_succ_set (l : List (Option Token)) (n : Nat) (x : Option Token)
    (h : n < l.length) : (l.set n x).take (n + 1) = l.take n ++ [x] := by
  induction l generalizing n with
  | nil => simp at h
  | cons a rest ih =>
    cases n with
    | zero => simp
    | succ k =>
      simp only [List.length_cons] at h
      simp [ih k (by omega)]

/-- The buffer after writing `ms` from entry `n` on: the old entries before `n`, the
written tokens, the old entries after them. -/
theorem writeAll_eq (ms : List Token) :
    ∀ (out : List (Option Token)) (n : Nat), n + ms.length ≤ out.length →
      writeAll out n ms = out.take n ++ ms.map some ++ out.drop (n + ms.length) := by
  induction ms with
  | nil =>
    intro out n _
    simp [writeAll]
  | cons t rest ih =>
    intro out n h
    simp only [List.length_cons] at h
    have hrec := ih (out.set n (some t)) (n + 1) (by
      rw [List.length_set]
      omega)
    simp only [writeAll]
    rw [hrec, take_succ_set out n (some t) (by omega),
      List.drop_set_of_lt (some t) out (by omega)]
    simp only [List.map_cons, List.length_cons, List.append_assoc, List.singleton_append]
    congr 3
    omega

/-- The word-by-word list of matches is the list of the specification, with the
bytes consumed so far put in front of every prefix. -/
theorem matchesFrom_eq_flatMap (tokens : List Token) (words : List Text) :
    ∀ acc : List Nat,
      matchesFrom tokens acc words
        = (List.range words.length).flatMap (fun k =>
            tokens.filter (fun t =>
              decide (textSliceToBytes t.text
                = acc ++ textSliceToBytes (words.take (k + 1))))) := by
  induction words with
  | nil =>
    intro acc
    simp [matchesFrom]
  | cons w rest ih =>
    intro acc
    simp only [matchesFrom, List.length_cons, List.range_succ_eq_map, List.flatMap_cons,
      List.flatMap_map, ih (acc ++ w)]
    simp [textSliceToBytes, List.append_assoc]

/-- The specification list is the word-by-word list started at the root. -/
theorem prefixKeyMatches_eq_matchesFrom (tokens : List Token) (words : List Text) :
    prefixKeyMatches tokens words = matchesFrom tokens [] words := by
  rw [matchesFrom_eq_flatMap]
  simp [prefixKeyMatches]

/-- In a consistent dictionary at most one stored token has a given key. -/
theorem Consistent.filter_key_length_le_one (dict : Dictionary) (hC : Consistent dict)
    (key : List Nat) :
    (dict.tokens.filter (fun u => decide (textSliceToBytes u.text = key))).length ≤ 1 := by
  cases hv : dict.trie.Get key with
  | none => simp [Consistent.filter_key_of_none dict hC key hv]
  | some v =>
    obtain ⟨t, ht, _⟩ := hC.1 key v hv
    simp [Consistent.filter_key_of_some dict hC key v t hv ht]

/-- In a consistent dictionary a path starts a trie key exactly when it starts the
key of a stored token. -/
theorem Consistent.key_iff_token (dict : Dictionary) (hC : Consistent dict) (p : List Nat) :
    (∃ e ∈ dict.trie.entries, p <+: e.1)
      ↔ ∃ t ∈ dict.tokens, p <+: textSliceToBytes t.text := by
  constructor
  · rintro ⟨e, he, hp⟩
    cases hg : dict.trie.Get e.1 with
    | none =>
      have hf : dict.trie.entries.find? (fun x => decide (x.1 = e.1)) = none := by
        simpa [Cedar.Get] using hg
      have := List.find?_eq_none.mp hf e he
      simp at this
    | some v =>
      obtain ⟨t, ht, hkey⟩ := hC.1 e.1 v hg
      exact ⟨t, List.mem_iff_getElem?.mpr ⟨v, ht⟩, by rw [hkey]; exact hp⟩
  · rintro ⟨t, ht, hp⟩
    obtain ⟨i, hi⟩ := List.mem_iff_getElem?.mp ht
    exact ⟨_, Cedar.mem_of_Get _ _ _ (hC.2 i t hi), hp⟩

/-- The count returned by the loop is the start count plus the number of accepting
states met by the walk, in any dictionary. -/
theorem lookupLoop_count_eq (dict : Dictionary) (words : List Text) :
    ∀ (id : List Nat) (out : List (Option Token)) (n : Nat) (r : List (Option Token) × Nat),
      lookupLoop dict words id out n = some r →
      r.2 = n + (walkValues dict.trie words id).length := by
  induction words with
  | nil =>
    intro id out n r h
    simp only [lookupLoop, Option.some.injEq] at h
    subst h
    simp [walkValues]
  | cons x rest ih =>
    intro id out n r h
    simp only [lookupLoop] at h
    simp only [walkValues]
    cases hx : dict.trie.Jump x id with
    | none =>
      simp only [hx, Option.some.injEq] at h
      subst h
      simp
    | some dst =>
      simp only [hx] at h ⊢
      cases hv : dict.trie.Value dst with
      | none =>
        simp only [hv] at h ⊢
        exact ih _ _ _ _ h
      | some v =>
        simp only [hv] at h ⊢
        cases ht : dict.tokens[v]? with
        | none => simp [ht] at h
        | some t =>
          simp only [ht] at h
          split at h
          · have := ih _ _ _ _ h
            simp only [List.length_cons]
            omega
          · cases h

/-- Every value met by the walk is the value of a stored key. -/
theorem walkValues_mem (trie : Cedar) (words : List Text) :
    ∀ (id : List Nat) (v : Nat), v ∈ walkValues trie words id →
      ∃ key, trie.Get key = some v := by
  induction words with
  | nil =>
    intro id v h
    simp [walkValues] at h
  | cons x rest ih =>
    intro id v h
    simp only [walkValues] at h
    cases hx : trie.Jump x id with
    | none => simp [hx] at h
    | some dst =>
      simp only [hx] at h
      cases hv : trie.Value dst with
      | none =>
        simp only [hv] at h
        exact ih _ _ h
      | some u =>
        simp only [hv, List.mem_cons] at h
        rcases h with h1 | h1
        · subst h1
          exact ⟨dst, hv⟩
        · exact ih _ _ h1

/-- The walk meets at most one accepting state per word. -/
theorem walkValues_length_le (trie : Cedar) (words : List Text) :
    ∀ id : List Nat, (walkValues trie words id).length ≤ words.length := by
  induction words with
  | nil =>
    intro id
    simp [walkValues]
  | cons x rest ih =>
    intro id
    simp only [walkValues]
    cases hx : trie.Jump x id with
    | none => simp
    | some dst =>
      simp only
      cases hv : trie.Value dst with
      | none =>
        have := ih dst
        simp only [List.length_cons]
        omega
      | some u =>
        have := ih dst
        simp only [List.length_cons]
        omega

/-- The count of matching prefixes, one word at a time. -/
theorem countKeys_cons (trie : Cedar) (acc : List Nat) (w : Text) (rest : List Text) :
    countKeys trie acc (w :: rest)
      = (if (trie.Get (acc ++ w)).isSome then 1 else 0) + countKeys trie (acc ++ w) rest := by
  simp only [countKeys, List.length_cons, List.range_succ_eq_map, List.filter_cons,
    List.filter_map, List.length_map]
  have hfun : ((fun k => (trie.Get (acc ++ textSliceToBytes (List.take (k + 1) (w :: rest)))).isSome) ∘ Nat.succ)
      = (fun k => (trie.Get (acc ++ w ++ textSliceToBytes (List.take (k + 1) rest))).isSome) := by
    funext k
    simp [textSliceToBytes, List.append_assoc]
  rw [hfun]
  simp only [List.take_succ_cons, List.take_zero, textSliceToBytes, List.append_nil, zero_add]
  split
  · simp
    omega
  · simp

/-- The walk meets exactly as many accepting states as the input has prefixes that
are keys of the trie: after a failed transition no longer prefix is a key. -/
theorem walkValues_length_eq (trie : Cedar) (words : List Text) :
    ∀ acc : List Nat, (walkValues trie words acc).length = countKeys trie acc words := by
  induction words with
  | nil =>
    intro acc
    simp [walkValues, countKeys]
  | cons w rest ih =>
    intro acc
    rw [countKeys_cons]
    simp only [walkValues]
    cases hj : trie.Jump w acc with
    | none =>
      have hno := Cedar.Jump_none_no_key _ _ _ hj
      have h0 : trie.Get (acc ++ w) = none :=
        Cedar.Get_none_of_no_key _ _ _ hno (List.prefix_refl _)
      have hrest : countKeys trie (acc ++ w) rest = 0 := by
        simp only [countKeys, List.length_eq_zero, List.filter_eq_nil_iff]
        intro k _
        rw [Cedar.Get_none_of_no_key _ _ _ hno (List.prefix_append _ _)]
        simp
      simp [h0, hrest]
    | some dst =>
      have hid := Cedar.Jump_eq_append _ _ _ _ hj
      subst hid
      simp only [Cedar.Value]
      cases hv : trie.Get (acc ++ w) with
      | none =>
        simp only [Option.isSome_none]
        rw [ih]
        simp
      | some v =>
        simp only [List.length_cons, Option.isSome_some, if_true]
        rw [ih]
        omega

/-! ### Claims on lookup after removal, buffer overflow and dictionaries built by
`addToken` only -/

/-- C11: after `addToken` of "中", "中国", "中国人" in that order and `delToken` of
"中国", `MaxTokenLength()` is still 3, but `lookupTokens` on the symbols of
"中国人民" does not return "中" and "中国人": the store now has two slots, the key of
"中国人" still maps to slot 2, and the lookup panics on `dict.tokens[2]`. -/
theorem lookupTokens_after_delToken_zhongGuo_panics :
    runOps NewDictionary
        [Op.add tokZhong, Op.add tokZhongGuo, Op.add tokZhongGuoRen, Op.del tokZhongGuo]
        = some dictZhongRen
      ∧ MaxTokenLength dictZhongRen = 3
      ∧ dictZhongRen.tokens = [tokZhong, tokZhongGuoRen]
      ∧ dictZhongRen.trie.Get (textSliceToBytes tokZhongGuoRen.text) = some 2
      ∧ dictZhongRen.tokens[2]? = none
      ∧ lookupTokens dictZhongRen [symZhong, symGuo, symRen, symMin]
          [none, none, none, none] = none := by
  refine ⟨by decide, by decide, by decide, by decide, by decide, by decide⟩

/-- C12: in every dictionary, when the number of matching prefixes of the input (the
non-empty prefixes whose byte encoding is a key of the trie) exceeds the length of
the output buffer, `lookupTokens` does not return: it panics with an index out of
range, so no truncated result is ever returned. -/
theorem lookupTokens_overflow_panics (dict : Dictionary) (words : List Text)
    (out : List (Option Token)) (h : out.length < matchCount dict words) :
    lookupTokens dict words out = none := by
  unfold lookupTokens
  apply lookupLoop_overflow
  · omega
  · rw [walkValues_length_eq]
    simpa [matchCount] using h

/-- Instance of C12: with "中", "中国", "中国人" stored, the input "中国人民" has three
matching prefixes and a buffer of length 2 makes `lookupTokens` panic. -/
theorem lookupTokens_overflow_panics_witness :
    ([none, none] : List (Option Token)).length
        < matchCount dictZhong [symZhong, symGuo, symRen, symMin]
      ∧ lookupTokens dictZhong [symZhong, symGuo, symRen, symMin] [none, none] = none :=
  ⟨by decide,
   lookupTokens_overflow_panics dictZhong [symZhong, symGuo, symRen, symMin] [none, none]
     (by decide)⟩

/-- When no stored key starts with the bytes of the first word, the loop started at
the root matches nothing, writes nothing and does not panic. -/
theorem lookupLoop_first_word_dead (dict : Dictionary) (w : Text) (rest : List Text)
    (out : List (Option Token)) (h : ∀ e ∈ dict.trie.entries, ¬ w <+: e.1) :
    lookupLoop dict (w :: rest) [] out 0 = some (out, 0) := by
  cases hj : dict.trie.Jump w [] with
  | none => simp [lookupLoop, hj]
  | some dst =>
    have hid := Cedar.Jump_eq_append _ _ _ _ hj
    simp only [List.nil_append] at hid
    subst hid
    have hv : dict.trie.Get dst = none :=
      Cedar.Get_none_of_no_key _ _ _ h (List.prefix_refl _)
    simp only [lookupLoop, hj, Cedar.Value, hv]
    exact lookupLoop_dead dict rest dst out 0 h

/-- In every dictionary state, when no key of the trie index starts with the bytes
of the first input symbol, `lookupTokens` returns normally with count 0 and leaves
the output buffer as it was. -/
theorem lookupTokens_no_transition (dict : Dictionary) (w : Text) (rest : List Text)
    (out : List (Option Token)) (h : ∀ e ∈ dict.trie.entries, ¬ w <+: e.1) :
    lookupTokens dict (w :: rest) out = some (out, 0) := by
  unfold lookupTokens
  exact lookupLoop_first_word_dead dict w rest out h

/-- With "中", "中国", "中国人" stored, the input "民中" matches nothing and the
buffer keeps its two `nil` entries. -/
theorem lookupTokens_no_transition_witness :
    (∀ e ∈ dictZhong.trie.entries, ¬ symMin <+: e.1)
      ∧ lookupTokens dictZhong [symMin, symZhong] [none, none]
          = some ([none, none], 0) :=
  ⟨by decide, lookupTokens_no_transition dictZhong symMin [symZhong] [none, none] (by decide)⟩

/-- For a dictionary built by `addToken` only, the trie condition is the same as:
the bytes of the first symbol start the key of no token of the store. -/
theorem lookupTokens_addTokens_no_stored_key (toks : List Token) (w : Text)
    (rest : List Text) (out : List (Option Token))
    (h : ∀ t ∈ (addTokens toks).tokens, ¬ w <+: textSliceToBytes t.text) :
    lookupTokens (addTokens toks) (w :: rest) out = some (out, 0) := by
  unfold lookupTokens
  apply lookupLoop_first_word_dead
  intro e he hp
  obtain ⟨t, ht, hpt⟩ :=
    (Consistent.key_iff_token _ (Consistent_addTokens toks) w).mp ⟨e, he, hp⟩
  exact h t ht hpt

/-- C13: an input whose first symbol begins no stored token can still match or
panic after removals.  After adding "a", "b", "c", "d", "e" and deleting "a" then
"b", the store is `["b", "d", "e"]`; the symbol "c" is the first symbol of no stored
token and its bytes start the key of none, yet `lookupTokens` on the input "c"
writes the token "e" to the buffer and returns 1.  After adding "a", "b", "c" and
deleting "a" then "b", the store is `["b"]` and the same lookup panics. -/
theorem lookupTokens_matches_without_stored_token :
    runOps NewDictionary
        [Op.add tokA, Op.add tokB, Op.add tokC, Op.add tokD, Op.add tokE,
         Op.del tokA, Op.del tokB] = some dictBDE
      ∧ dictBDE.tokens = [tokB, tokD, tokE]
      ∧ (∀ t ∈ dictBDE.tokens, t.text.head? ≠ some [99])
      ∧ (∀ t ∈ dictBDE.tokens, ¬ [99] <+: textSliceToBytes t.text)
      ∧ lookupTokens dictBDE [[99]] [none] = some ([some tokE], 1)
      ∧ runOps NewDictionary
          [Op.add tokA, Op.add tokB, Op.add tokC, Op.del tokA, Op.del tokB]
          = some dictBStale
      ∧ dictBStale.tokens = [tokB]
      ∧ (∀ t ∈ dictBStale.tokens, ¬ [99] <+: textSliceToBytes t.text)
      ∧ lookupTokens dictBStale [[99]] [none] = none := by
  decide

/-- C15: for a dictionary built by `addToken` only and a buffer at least as long as
the input, `lookupTokens` returns normally; the count is the number of stored tokens
whose key equals the byte encoding of a non-empty prefix of the input; these tokens
are written to the front of the buffer by increasing length of the prefix and the
rest of the buffer is untouched; each prefix has at most one such token; and the
words from the first one without a trie transition on do not change the result. -/
theorem lookupTokens_addTokens_prefix_keys (toks : List Token) (words : List Text)
    (out : List (Option Token)) (h : words.length ≤ out.length) :
    lookupTokens (addTokens toks) words out
        = some ((prefixKeyMatches (addTokens toks).tokens words).map some
            ++ out.drop (prefixKeyMatches (addTokens toks).tokens words).length,
          (prefixKeyMatches (addTokens toks).tokens words).length)
      ∧ (lookupTokens (addTokens toks) words out).map matched
        = some (prefixKeyMatches (addTokens toks).tokens words)
      ∧ (∀ k, ((addTokens toks).tokens.filter (fun t =>
          decide (textSliceToBytes t.text
            = textSliceToBytes (words.take (k + 1))))).length ≤ 1)
      ∧ (∀ pre w post, words = pre ++ w :: post →
          (addTokens toks).trie.Jump w (textSliceToBytes pre) = none →
          lookupTokens (addTokens toks) words out
            = lookupTokens (addTokens toks) pre out) := by
  have hC := Consistent_addTokens toks
  have hLoop := lookupLoop_consistent (addTokens toks) hC words [] out 0 (by omega)
  rw [← prefixKeyMatches_eq_matchesFrom] at hLoop
  have hLen : (prefixKeyMatches (addTokens toks).tokens words).length ≤ out.length := by
    have := lookupLoop_count_le (addTokens toks) words [] out 0 _ hLoop
    simp only at this
    omega
  have hRes : lookupTokens (addTokens toks) words out
      = some ((prefixKeyMatches (addTokens toks).tokens words).map some
          ++ out.drop (prefixKeyMatches (addTokens toks).tokens words).length,
        (prefixKeyMatches (addTokens toks).tokens words).length) := by
    unfold lookupTokens
    rw [hLoop, writeAll_eq _ out 0 (by omega)]
    simp
  refine ⟨hRes, ?_, ?_, ?_⟩
  · rw [hRes]
    simp only [Option.map_some', matched, Option.some.injEq]
    have hTake : (List.map some (prefixKeyMatches (addTokens toks).tokens words)
        ++ List.drop (prefixKeyMatches (addTokens toks).tokens words).length out).take
          (prefixKeyMatches (addTokens toks).tokens words).length
        = List.map some (prefixKeyMatches (addTokens toks).tokens words) := by
      simp
    rw [hTake, List.filterMap_map]
    simp
  · intro k
    exact Consistent.filter_key_length_le_one _ hC _
  · intro pre w post hw hj
    subst hw
    unfold lookupTokens
    exact lookupLoop_stop _ w post pre [] out 0 (by simpa using hj)

/-- Instance of C15: with "中", "中国", "中国人" added, the input "中国人民" and a
buffer of four `nil` entries, the matches are the three tokens in that order. -/
theorem lookupTokens_addTokens_prefix_keys_witness :
    [symZhong, symGuo, symRen, symMin].length
        ≤ ([none, none, none, none] : List (Option Token)).length
      ∧ prefixKeyMatches (addTokens [tokZhong, tokZhongGuo, tokZhongGuoRen]).tokens
          [symZhong, symGuo, symRen, symMin] = [tokZhong, tokZhongGuo, tokZhongGuoRen]
      ∧ (lookupTokens (addTokens [tokZhong, tokZhongGuo, tokZhongGuoRen])
          [symZhong, symGuo, symRen, symMin] [none, none, none, none]).map matched
        = some (prefixKeyMatches (addTokens [tokZhong, tokZhongGuo, tokZhongGuoRen]).tokens
          [symZhong, symGuo, symRen, symMin]) :=
  ⟨by decide, by decide,
   (lookupTokens_addTokens_prefix_keys [tokZhong, tokZhongGuo, tokZhongGuoRen]
      [symZhong, symGuo, symRen, symMin] [none, none, none, none] (by decide)).2.1⟩

/-- C16: for a dictionary built by `addToken` only, `MaxTokenLength()` is the largest
`len(text)` over the stored tokens, and it is 0 for the dictionary with no token. -/
theorem maxTokenLength_addTokens (toks : List Token) :
    MaxTokenLength (addTokens toks) = maxTextLength (addTokens toks).tokens
      ∧ MaxTokenLength (addTokens []) = 0
      ∧ maxTextLength (addTokens []).tokens = 0 := by
  refine ⟨?_, by decide, by decide⟩
  exact foldl_addToken_maxTokenLength_exact toks NewDictionary (by decide)

/-- C17: in a state where no stored text is longer than `maxTokenLength`, a
`delToken` call that returns leaves `MaxTokenLength()` as it was and keeps that
bound; `addToken` never lowers `MaxTokenLength()` and keeps the bound too; and every
state reached from `NewDictionary` by `addToken` and `delToken` calls has the
bound. -/
theorem maxTokenLength_unchanged_by_delToken (dict : Dictionary) (token : Token)
    (d : Dictionary) (hBound : lengthBound dict) (hRet : delToken dict token = some d) :
    MaxTokenLength d = MaxTokenLength dict
      ∧ lengthBound d
      ∧ MaxTokenLength dict ≤ MaxTokenLength (addToken dict token)
      ∧ lengthBound (addToken dict token)
      ∧ (∀ ops r, runOps NewDictionary ops = some r → lengthBound r) := by
  obtain ⟨hSame, hB⟩ := delToken_lengthBound dict token d hBound hRet
  refine ⟨hSame, hB, (addToken_lengthBound dict token).1,
    (addToken_lengthBound dict token).2 hBound, ?_⟩
  intro ops r hr
  exact runOps_lengthBound ops NewDictionary r (by decide) hr

/-- Instance of C17: with "中" and "中国" stored, deleting "中国" returns and leaves
`MaxTokenLength()` at 2. -/
theorem maxTokenLength_unchanged_by_delToken_witness :
    lengthBound (addTokens [tokZhong, tokZhongGuo])
      ∧ delToken (addTokens [tokZhong, tokZhongGuo]) tokZhongGuo = some dictZhongOnly
      ∧ MaxTokenLength dictZhongOnly = MaxTokenLength (addTokens [tokZhong, tokZhongGuo])
      ∧ MaxTokenLength dictZhongOnly = 2 :=
  ⟨by decide, by decide,
   (maxTokenLength_unchanged_by_delToken (addTokens [tokZhong, tokZhongGuo]) tokZhongGuo
      dictZhongOnly (by decide) (by decide)).1,
   by decide⟩

/-- C18: for a dictionary built by `addToken` only, the input has at most one
matching prefix per word and every value the walk meets is a valid index of the
token store; so with a buffer at least as long as the input `lookupTokens` returns
normally (no index is out of range), with a count that is the number of matching
prefixes, at most `len(words)` and at most the buffer length, and a buffer of
unchanged length. -/
theorem lookupTokens_addTokens_in_bounds (toks : List Token) (words : List Text)
    (out : List (Option Token)) (h : words.length ≤ out.length) :
    matchCount (addTokens toks) words ≤ words.length
      ∧ (∀ v ∈ walkValues (addTokens toks).trie words [], v < NumTokens (addTokens toks))
      ∧ ∃ r, lookupTokens (addTokens toks) words out = some r
          ∧ r.2 = matchCount (addTokens toks) words
          ∧ r.2 ≤ words.length
          ∧ r.2 ≤ out.length
          ∧ r.1.length = out.length := by
  have hC := Consistent_addTokens toks
  have hLoop := lookupLoop_consistent (addTokens toks) hC words [] out 0 (by omega)
  have hCount := lookupLoop_count_eq (addTokens toks) words [] out 0 _ hLoop
  have hLe := lookupLoop_count_le (addTokens toks) words [] out 0 _ hLoop
  rw [walkValues_length_eq] at hCount
  simp only at hCount hLe
  have hWalk := walkValues_length_le (addTokens toks).trie words []
  rw [walkValues_length_eq] at hWalk
  refine ⟨hWalk, ?_, ?_⟩
  · intro v hv
    obtain ⟨key, hkey⟩ := walkValues_mem _ _ _ _ hv
    obtain ⟨t, ht, _⟩ := hC.1 key v hkey
    exact (List.getElem?_eq_some_iff.mp ht).1
  · refine ⟨_, hLoop, ?_, ?_, ?_, ?_⟩
    · simp only [matchCount]
      omega
    · simp only
      omega
    · simp only
      omega
    · simp only
      rw [writeAll_eq _ out 0 (by omega)]
      simp only [List.take_zero, List.nil_append, List.length_append, List.length_map,
        List.length_drop]
      omega

/-- Instance of C18: with "中", "中国", "中国人" added, the input "中国人民" and a
buffer of four entries, the walk meets three accepting states, all valid indices. -/
theorem lookupTokens_addTokens_in_bounds_witness :
    [symZhong, symGuo, symRen, symMin].length
        ≤ ([none, none, none, none] : List (Option Token)).length
      ∧ walkValues (addTokens [tokZhong, tokZhongGuo, tokZhongGuoRen]).trie
          [symZhong, symGuo, symRen, symMin] [] = [0, 1, 2]
      ∧ matchCount (addTokens [tokZhong, tokZhongGuo, tokZhongGuoRen])
          [symZhong, symGuo, symRen, symMin] ≤ [symZhong, symGuo, symRen, symMin].length :=
  ⟨by decide, by decide,
   (lookupTokens_addTokens_in_bounds [tokZhong, tokZhongGuo, tokZhongGuoRen]
      [symZhong, symGuo, symRen, symMin] [none, none, none, none] (by decide)).1⟩

end Sego
